import Mathlib

/-!
Verification of the piecewise-linear homotopy-word tracker
(`src/piecewise_linear.rs`).

Shallow embedding conventions:
* `f32` coordinates are modelled as `ℚ`; the constant `f32::EPSILON`
  (`2^-23`) is `f32_EPSILON`.  All concrete inputs used below are small
  integers (or small dyadic rationals), on which `f32` arithmetic in the
  source is exact, so the rational model agrees with the floating-point
  execution there.  `f32::mul_add(a, b, c)` is `a * b + c` (fused
  multiply-add is exact in `ℚ`).
* Rust `String`s are modelled at the byte level (`List Nat`, UTF-8
  bytes), because `simplify_word` in the source indexes and drains the
  string by bytes.  `Char` lists are encoded through `encodeChar`,
  the exact UTF-8 encoding.
* `i8` winding accumulators are modelled as `ℤ`.  (Rust `%` is `rem`,
  Lean `%` on `ℤ` is `emod`; the two agree on the only use made of
  them, the evenness test `entry % 2 == 0`, and `signum` is `Int.sign`.)
* `HashMap<char, i8>` is modelled as an association list with
  first-match lookup (`getVal`) and shadowing insert (`setVal`);
  lookups agree with the hash-map semantics of the source.
* Partial operations (`start()` / `end()` panic on an empty path in the
  source) are modelled with `Option` (`head?` / `getLast?`).
-/

/-- 2D vector with rational coordinates, modelling `bevy`'s `Vec2` (`f32` pair). -/
structure Vec2 where
  x : ℚ
  y : ℚ
deriving DecidableEq, Repr

/-- The constant `f32::EPSILON` = 2^-23. -/
def f32_EPSILON : ℚ := 1 / 2 ^ 23

/-- A puncture point: `position` and a one-character `name`
(`PuncturePoint` in the source; `new` stores both fields unchanged). -/
structure PuncturePoint where
  position : Vec2
  name : Char
deriving DecidableEq, Repr

/-- `PuncturePoint::new(position, name)` — stores both fields as given. -/
def PuncturePoint.new (position : Vec2) (name : Char) : PuncturePoint :=
  { position := position, name := name }

/-- `PuncturePoint::is_in_triangle`: barycentric containment test with
epsilon tolerance; degenerate triangles (`|denom| ≤ ε`) report `false`. -/
def PuncturePoint.is_in_triangle (pp : PuncturePoint) (p1 p2 p3 : Vec2) : Bool :=
  let p := pp.position
  let denom := (p2.y - p3.y) * (p1.x - p3.x) + (p3.x - p2.x) * (p1.y - p3.y)
  if |denom| ≤ f32_EPSILON then false
  else
    let a := ((p2.y - p3.y) * (p.x - p3.x) + (p3.x - p2.x) * (p.y - p3.y)) / denom
    let b := ((p3.y - p1.y) * (p.x - p3.x) + (p1.x - p3.x) * (p.y - p3.y)) / denom
    let c := 1 - a - b
    [a, b, c].all fun t => decide (-f32_EPSILON ≤ t ∧ t < 1 + f32_EPSILON)

/-- `PuncturePoint::winding_update(start, end)`: signed cross product of
`(puncture - start)` with `(end - start)`; a nonzero cross product whose
x-interval `[min start.x end.x, max start.x end.x]` (inclusive) contains
the puncture's x yields `some (±1)`, otherwise `none`. -/
def PuncturePoint.winding_update (pp : PuncturePoint) (s e : Vec2) : Option ℤ :=
  let stp_x := pp.position.x - s.x
  let stp_y := pp.position.y - s.y
  let sv_x := e.x - s.x
  let sv_y := e.y - s.y
  let cross := stp_x * sv_y - stp_y * sv_x
  if cross ≠ 0 then
    let smaller := min s.x e.x
    let larger := max s.x e.x
    if cross < 0 ∧ smaller ≤ pp.position.x ∧ pp.position.x ≤ larger then some (-1)
    else if 0 < cross ∧ smaller ≤ pp.position.x ∧ pp.position.x ≤ larger then some 1
    else none
  else none

/-- `is_any_point_in_triangle(p1, p2, p3, puncture_points)`. -/
def is_any_point_in_triangle (p1 p2 p3 : Vec2) (pts : List PuncturePoint) : Bool :=
  pts.any fun pp => pp.is_in_triangle p1 p2 p3

/-- `PLPath`: ordered node list. -/
structure PLPath where
  nodes : List Vec2
deriving DecidableEq, Repr

/-- `PLPath::start()` — first node (source panics on empty; modelled by `Option`). -/
def PLPath.start (p : PLPath) : Option Vec2 := p.nodes.head?

/-- `PLPath::end()` — last node (source panics on empty; modelled by `Option`). -/
def PLPath.endpoint (p : PLPath) : Option Vec2 := p.nodes.getLast?

/-- `PLPath::push` — unconditional append. -/
def PLPath.push (p : PLPath) (position : Vec2) : PLPath :=
  { nodes := p.nodes ++ [position] }

/-- `PathType`: the current path plus the fixed puncture list.  (The
`base_path` field of the source is never consulted by any operation the
claims mention and is omitted.) -/
structure PathType where
  current_path : PLPath
  puncture_points : List PuncturePoint
deriving DecidableEq, Repr

/-- `PathType::pop` — `self.current_path.nodes.pop()`: removes the last
node unconditionally (`Vec::pop` is a no-op only on an empty vector). -/
def PathType.pop (t : PathType) : PathType :=
  { t with current_path := { nodes := t.current_path.nodes.dropLast } }

/-- The node-list recursion of `PathType::push`: with more than two
nodes, if no puncture is in the triangle of the last two nodes and the
new point, pop the last node and retry; otherwise append. -/
def pushNodes (pts : List PuncturePoint) (nodes : List Vec2) (point : Vec2) :
    List Vec2 :=
  if h : 2 < nodes.length then
    -- `p1`/`p2` of the source (`nodes[i]`, `nodes[i+1]` with `i = len - 2`)
    -- are inlined as the two trailing nodes.
    if is_any_point_in_triangle (nodes.getD (nodes.length - 2) ⟨0, 0⟩)
        (nodes.getD (nodes.length - 2 + 1) ⟨0, 0⟩) point pts = false then
      pushNodes pts nodes.dropLast point
    else
      nodes ++ [point]
  else
    nodes ++ [point]
termination_by nodes.length
decreasing_by
  simp only [List.length_dropLast]
  omega

/-- `PathType::push(point)`. -/
def PathType.push (t : PathType) (point : Vec2) : PathType :=
  { t with current_path := { nodes := pushNodes t.puncture_points t.current_path.nodes point } }

/-- `char::to_ascii_uppercase` applied to a byte (`u8 as char`): maps
`a`-`z` (97-122) to `A`-`Z`, identity otherwise. -/
def toUpperByte (a : Nat) : Nat :=
  if 97 ≤ a ∧ a ≤ 122 then a - 32 else a

/-- The cancellation test of `simplify_word`: the two bytes (read as
chars) have the same ASCII uppercase form but are not equal. -/
def cancelable (a b : Nat) : Bool :=
  decide (toUpperByte a = toUpperByte b) && decide (a ≠ b)

/-- The `while` loop of `simplify_word`, over the byte string `w` with
scan index `i`: when the bytes at `i`, `i+1` cancel, drain them
(`word.drain(i..i+2)`) and step the index back (`i.saturating_sub(1)`),
otherwise advance. -/
def simplifyAux (w : List Nat) (i : Nat) : List Nat :=
  if h : i + 1 < w.length then
    if cancelable (w.getD i 0) (w.getD (i + 1) 0) then
      simplifyAux (w.take i ++ w.drop (i + 2)) (i - 1)
    else
      simplifyAux w (i + 1)
  else
    w
termination_by (w.length, w.length - i)
decreasing_by
  · apply Prod.Lex.left
    simp only [List.length_append, List.length_take, List.length_drop]
    omega
  · apply Prod.Lex.right
    omega

/-- `simplify_word`, at the byte level of the Rust `String`. -/
def simplify_word (w : List Nat) : List Nat := simplifyAux w 0

/-- A byte word is reduced when no adjacent pair cancels. -/
def Reduced (w : List Nat) : Prop :=
  ∀ j, j + 1 < w.length → cancelable (w.getD j 0) (w.getD (j + 1) 0) = false

/-- No character of the list is an uppercase ASCII letter. -/
def noUpperAscii (l : List Char) : Prop :=
  ∀ c ∈ l, ¬(65 ≤ c.toNat ∧ c.toNat ≤ 90)

/-- `char::to_ascii_lowercase`: maps `A`-`Z` to `a`-`z`, identity otherwise. -/
def asciiLower (c : Char) : Char :=
  if 65 ≤ c.toNat ∧ c.toNat ≤ 90 then Char.ofNat (c.toNat + 32) else c

/-- `char::to_ascii_uppercase`: maps `a`-`z` to `A`-`Z`, identity otherwise. -/
def asciiUpper (c : Char) : Char :=
  if 97 ≤ c.toNat ∧ c.toNat ≤ 122 then Char.ofNat (c.toNat - 32) else c

/-- UTF-8 encoding of one character (how `String::push` appends bytes). -/
def encodeChar (c : Char) : List Nat :=
  if c.toNat < 0x80 then [c.toNat]
  else if c.toNat < 0x800 then [0xC0 + c.toNat / 0x40, 0x80 + c.toNat % 0x40]
  else if c.toNat < 0x10000 then
    [0xE0 + c.toNat / 0x1000, 0x80 + c.toNat / 0x40 % 0x40, 0x80 + c.toNat % 0x40]
  else
    [0xF0 + c.toNat / 0x40000, 0x80 + c.toNat / 0x1000 % 0x40,
      0x80 + c.toNat / 0x40 % 0x40, 0x80 + c.toNat % 0x40]

/-- UTF-8 encoding of a character sequence: the byte content of the
Rust `String` holding those characters. -/
def encodeStr : List Char → List Nat
  | [] => []
  | c :: cs => encodeChar c ++ encodeStr cs

/-- Lookup in the association-list model of `HashMap<char, i8>`
(missing keys read as `0`, matching `entry(name).or_insert(0)`). -/
def getVal (l : List (Char × ℤ)) (c : Char) : ℤ :=
  (((l.find? fun p => p.1 == c).map Prod.snd).getD 0)

/-- Update in the association-list model of `HashMap<char, i8>`
(shadowing insert; `getVal` sees the newest binding). -/
def setVal (l : List (Char × ℤ)) (c : Char) (v : ℤ) : List (Char × ℤ) :=
  (c, v) :: l

/-- The mutable state of the `word()` loop: the `point_vals` map, the
`first_encounter_order` vector and the raw `word` characters. -/
structure WState where
  vals : List (Char × ℤ)
  order : List Char
  w : List Char
deriving DecidableEq, Repr

/-- One iteration of the inner loop of `PathType::word` (lines 428-441
of the source): process one puncture against the edge `(s, e)`. -/
def wordStep (s e : Vec2) (st : WState) (pp : PuncturePoint) : WState :=
  match pp.winding_update s e with
  | none => st
  | some n =>
    let name := pp.name
    let entry := getVal st.vals name + n
    let vals := setVal st.vals name entry
    let order := if entry = 1 ∨ entry = -1 then st.order ++ [name] else st.order
    let w :=
      if entry % 2 = 0 ∧ Int.sign entry = Int.sign n then st.w ++ [asciiLower name]
      else st.w
    ⟨vals, order, w⟩

/-- `PathType::word()` (the uncommented version, lines 416-450),
returning the UTF-8 bytes of the produced `String`: walk the closed
loop's edges, fold `wordStep` over the punctures for each edge, reorder
the raw word by the first-encounter order, then `simplify_word`.
(The source computes `full_loop.push(*self.current_path.start())`,
panicking on an empty path; the model uses `headD` there, which only
differs on the empty path.) -/
def PathType.word (t : PathType) : List Nat :=
  let full_loop := t.current_path.nodes ++ [t.current_path.nodes.headD ⟨0, 0⟩]
  let segs := full_loop.zip full_loop.tail
  let init : WState := ⟨t.puncture_points.map fun pp => (pp.name, (0 : ℤ)), [], []⟩
  let st := segs.foldl (fun acc se => t.puncture_points.foldl (wordStep se.1 se.2) acc) init
  let ordered := st.order.foldl
    (fun acc name => acc ++ st.w.filter fun c => asciiUpper c == name || asciiLower c == name) []
  simplify_word (encodeStr ordered)

/-! ### Spec-side definitions

Definitions in this section follow the wording of the specification or
of a claim (for refinement comparisons against the source model above);
each doc comment says which. -/

/-- Following claim C1's words: the unreduced word built by iterating
the closed loop's directed edges in traversal order and, for each edge,
the punctures in fixed list order, appending the puncture's label in
lowercase when `winding_update` returns `+1` and in uppercase when it
returns `-1` (`None` contributes nothing). -/
def specUnreducedC1 (pts : List PuncturePoint) (nodes : List Vec2) : List Char :=
  let full_loop := nodes ++ [nodes.headD ⟨0, 0⟩]
  let segs := full_loop.zip full_loop.tail
  segs.foldl (fun acc se => pts.foldl
    (fun acc2 pp =>
      match pp.winding_update se.1 se.2 with
      | some n => if 0 < n then acc2 ++ [asciiLower pp.name] else acc2 ++ [asciiUpper pp.name]
      | none => acc2) acc) []

/-- Following the amended claim C1: processing of one `(label, ±1)`
winding hit — update the label's counter, record the label in the
first-encounter sequence when the updated counter is `±1`, and append
the label's lowercase when the updated counter is even with the sign
of the hit. -/
def hitStep (st : WState) (h : Char × ℤ) : WState :=
  let name := h.1
  let entry := getVal st.vals name + h.2
  ⟨setVal st.vals name entry,
    if entry = 1 ∨ entry = -1 then st.order ++ [name] else st.order,
    if entry % 2 = 0 ∧ Int.sign entry = Int.sign h.2 then st.w ++ [asciiLower name]
    else st.w⟩

/-- The `(label, ±1)` winding hits one edge produces, in puncture list
order. -/
def hitsEdge (pts : List PuncturePoint) (s e : Vec2) : List (Char × ℤ) :=
  pts.filterMap fun pp => (pp.winding_update s e).map fun n => (pp.name, n)

/-- The winding hits of a whole edge list, in edge-traversal order. -/
def hitsLoop (pts : List PuncturePoint) : List (Vec2 × Vec2) → List (Char × ℤ)
  | [] => []
  | se :: rest => hitsEdge pts se.1 se.2 ++ hitsLoop pts rest

/-- The reordering of the raw word by first-encounter order: for each
recorded label in order, gather the raw-word letters of that label. -/
def orderedFromState (st : WState) : List Char :=
  st.order.foldl
    (fun acc name => acc ++ st.w.filter fun c => asciiUpper c == name || asciiLower c == name) []

/-- Following the amended claim C1: the word as a staged pipeline —
flatten the winding hits of the closed loop in traversal order, fold
the per-hit counter update over them, reorder by first encounter,
reduce. -/
def wordSpecC1Amended (pts : List PuncturePoint) (nodes : List Vec2) : List Nat :=
  let full_loop := nodes ++ [nodes.headD ⟨0, 0⟩]
  let segs := full_loop.zip full_loop.tail
  let st := (hitsLoop pts segs).foldl hitStep ⟨pts.map fun pp => (pp.name, (0 : ℤ)), [], []⟩
  simplify_word (encodeStr (orderedFromState st))

/-- Modelled from the spec: `should_not_remove` (spec §4.1) has no
counterpart in the source file — the claim C2 describes it as triangle
containment OR an epsilon x-band condition (puncture x strictly between
`p1.x` and `p2.x`, `p2.x < p3.x`, puncture within an epsilon band of
`p2.x`; mirrored for decreasing x).  The band epsilon is taken to be
`f32_EPSILON`. -/
def should_not_remove_spec (pp : PuncturePoint) (p1 p2 p3 : Vec2) : Bool :=
  pp.is_in_triangle p1 p2 p3 ||
  decide (p1.x < pp.position.x ∧ pp.position.x < p2.x ∧ p2.x < p3.x ∧
    |pp.position.x - p2.x| < f32_EPSILON) ||
  decide (p2.x < pp.position.x ∧ pp.position.x < p1.x ∧ p3.x < p2.x ∧
    |pp.position.x - p2.x| < f32_EPSILON)

/-- Following claim C2's words: append unconditionally when fewer than
2 nodes; otherwise pop the last node and retry exactly when no puncture
reports `should_not_remove` on the last two nodes and the new point. -/
def pushSpecC2 (pts : List PuncturePoint) (nodes : List Vec2) (point : Vec2) :
    List Vec2 :=
  if h : nodes.length < 2 then nodes ++ [point]
  else
    if pts.any (fun pp => should_not_remove_spec pp (nodes.getD (nodes.length - 2) ⟨0, 0⟩)
        (nodes.getD (nodes.length - 1) ⟨0, 0⟩) point) then nodes ++ [point]
    else pushSpecC2 pts nodes.dropLast point
termination_by nodes.length
decreasing_by
  simp only [List.length_dropLast]
  omega

/-- Following the amended claim C2: append unconditionally when the
path has 2 or fewer nodes; otherwise pop the last node and retry
exactly when no puncture point is inside the triangle of the last two
nodes and the new point. -/
def pushAmendedC2 (pts : List PuncturePoint) (nodes : List Vec2) (point : Vec2) :
    List Vec2 :=
  if h : nodes.length ≤ 2 then nodes ++ [point]
  else
    if pts.all (fun pp => !(pp.is_in_triangle (nodes.getD (nodes.length - 2) ⟨0, 0⟩)
        (nodes.getD (nodes.length - 1) ⟨0, 0⟩) point)) then
      pushAmendedC2 pts nodes.dropLast point
    else nodes ++ [point]
termination_by nodes.length
decreasing_by
  simp only [List.length_dropLast]
  omega

/-- Following claim C3's words: `none` when the segment does not
straddle the puncture's x (exclusive range from `start.x` to `end.x`,
direction-aware) or the cross product is zero; otherwise `±1` with the
sign of the cross product of `(end - start)` against
`(puncture - start)`. -/
def windingSpecC3 (pp : PuncturePoint) (s e : Vec2) : Option ℤ :=
  let cross := (e.x - s.x) * (pp.position.y - s.y) - (e.y - s.y) * (pp.position.x - s.x)
  let straddle := (s.x < pp.position.x ∧ pp.position.x < e.x) ∨
    (e.x < pp.position.x ∧ pp.position.x < s.x)
  if ¬straddle ∨ cross = 0 then none
  else if 0 < cross then some 1 else some (-1)

/-- Following the amended claim C3: `none` when the puncture's x lies
outside the inclusive interval from `min start.x end.x` to
`max start.x end.x` or the cross product of `(puncture - start)`
against `(end - start)` is zero; otherwise the sign of that cross
product. -/
def windingSpecC3Amended (pp : PuncturePoint) (s e : Vec2) : Option ℤ :=
  let cross := (pp.position.x - s.x) * (e.y - s.y) - (pp.position.y - s.y) * (e.x - s.x)
  if pp.position.x < min s.x e.x ∨ max s.x e.x < pp.position.x ∨ cross = 0 then none
  else if 0 < cross then some 1 else some (-1)

/-! ### Concrete fixtures used by counterexamples and witnesses -/

/-- The puncture of the repository's `test_word` (`(5,5)`, label `A`). -/
def puncA : PuncturePoint := PuncturePoint.new ⟨5, 5⟩ 'A'

/-- The node list of the repository's `test_word` first path (a double
counter-clockwise loop around `puncA`). -/
def nodesTest1 : List Vec2 := [⟨0, 0⟩, ⟨3, 6⟩, ⟨7, 6⟩, ⟨4, 4⟩, ⟨3, 6⟩, ⟨7, 6⟩, ⟨10, 0⟩]

/-- The `PathType` of the repository's `test_word` first assertion. -/
def tTest1 : PathType := ⟨⟨nodesTest1⟩, [puncA]⟩

/-- A puncture far away from the configurations it is tested against. -/
def puncFar : PuncturePoint := PuncturePoint.new ⟨10, 10⟩ 'A'

/-- A puncture inside the epsilon x-band of `x = 1` (its x is
`1 - 2^-24`, within `f32_EPSILON = 2^-23` of `1`) but far from the
segments themselves. -/
def puncBand : PuncturePoint := PuncturePoint.new ⟨1 - 1 / 2 ^ 24, 100⟩ 'A'

/-! ### Claim theorems -/

/-- The inner loop body of `word()` is the per-hit update applied when
`winding_update` fires. -/
theorem wordStep_eq_hitStep (s e : Vec2) (st : WState) (pp : PuncturePoint) :
    wordStep s e st pp =
      match pp.winding_update s e with
      | none => st
      | some n => hitStep st (pp.name, n) := by
  unfold wordStep hitStep
  rcases pp.winding_update s e <;> rfl

/-- Folding the punctures of one edge equals folding that edge's
winding hits. -/
theorem foldl_wordStep_eq_hits (s e : Vec2) (pps : List PuncturePoint) (st : WState) :
    pps.foldl (wordStep s e) st = (hitsEdge pps s e).foldl hitStep st := by
  induction pps generalizing st with
  | nil => rfl
  | cons pp pps ih =>
    simp only [List.foldl_cons, hitsEdge, List.filterMap_cons]
    rcases h : pp.winding_update s e with _ | n
    · rw [wordStep_eq_hitStep, h]
      simp only [Option.map_none']
      exact ih _
    · rw [wordStep_eq_hitStep, h]
      simp only [Option.map_some', List.foldl_cons]
      exact ih _

/-- The nested edge/puncture folds of `word()` equal one fold over the
flattened winding-hit sequence in traversal order. -/
theorem foldl_edges_eq_hitsLoop (pts : List PuncturePoint) (segs : List (Vec2 × Vec2))
    (st : WState) :
    segs.foldl (fun acc se => pts.foldl (wordStep se.1 se.2) acc) st =
      (hitsLoop pts segs).foldl hitStep st := by
  induction segs generalizing st with
  | nil => rfl
  | cons se segs ih =>
    simp only [List.foldl_cons, hitsLoop, List.foldl_append]
    rw [foldl_wordStep_eq_hits]
    exact ih _

/-- `word()` as the staged hit pipeline (shared shape of the amended
claim C1). -/
theorem word_as_hits (t : PathType) :
    t.word = simplify_word (encodeStr (orderedFromState
      ((hitsLoop t.puncture_points
          ((t.current_path.nodes ++ [t.current_path.nodes.headD ⟨0, 0⟩]).zip
            (t.current_path.nodes ++ [t.current_path.nodes.headD ⟨0, 0⟩]).tail)).foldl hitStep
        ⟨t.puncture_points.map fun pp => (pp.name, (0 : ℤ)), [], []⟩))) := by
  unfold PathType.word orderedFromState
  simp only [foldl_edges_eq_hitsLoop]

/-- Claim C1 (amended): `word()` walks the closed loop's edges in
traversal order and the punctures in fixed list order; for each
winding hit it updates a per-label counter, records the label into a
first-encounter sequence when the updated counter is `±1`, and appends
the label's **lowercase** (never uppercase) exactly when the updated
counter is even with the sign of the hit; the letters are then
**reordered** by first-encounter order (gathering all letters of each
recorded label) before reduction. -/
theorem c1_word_equals_amended (t : PathType) :
    t.word = wordSpecC1Amended t.puncture_points t.current_path.nodes := by
  rw [word_as_hits]
  rfl

/-- `winding_update` evaluations of `puncA` over the edges of the
repository's first `test_word` path (plus the closing edge). -/
theorem windA1 : puncA.winding_update ⟨0, 0⟩ ⟨3, 6⟩ = none := by
  norm_num [PuncturePoint.winding_update, puncA, PuncturePoint.new, min_def, max_def]

/-- Second edge: one counter-clockwise hit. -/
theorem windA2 : puncA.winding_update ⟨3, 6⟩ ⟨7, 6⟩ = some 1 := by
  norm_num [PuncturePoint.winding_update, puncA, PuncturePoint.new, min_def, max_def]

/-- Third edge: one counter-clockwise hit. -/
theorem windA3 : puncA.winding_update ⟨7, 6⟩ ⟨4, 4⟩ = some 1 := by
  norm_num [PuncturePoint.winding_update, puncA, PuncturePoint.new, min_def, max_def]

/-- Fourth edge: no x-straddle, no hit. -/
theorem windA4 : puncA.winding_update ⟨4, 4⟩ ⟨3, 6⟩ = none := by
  norm_num [PuncturePoint.winding_update, puncA, PuncturePoint.new, min_def, max_def]

/-- Sixth edge: no x-straddle, no hit. -/
theorem windA6 : puncA.winding_update ⟨7, 6⟩ ⟨10, 0⟩ = none := by
  norm_num [PuncturePoint.winding_update, puncA, PuncturePoint.new, min_def, max_def]

/-- Closing edge: one counter-clockwise hit. -/
theorem windA7 : puncA.winding_update ⟨10, 0⟩ ⟨0, 0⟩ = some 1 := by
  norm_num [PuncturePoint.winding_update, puncA, PuncturePoint.new, min_def, max_def]

/-- The edge list of the closed loop over `nodesTest1`. -/
theorem segs_test1 :
    ((nodesTest1 ++ [nodesTest1.headD ⟨0, 0⟩]).zip
      (nodesTest1 ++ [nodesTest1.headD ⟨0, 0⟩]).tail) =
    [(⟨0, 0⟩, ⟨3, 6⟩), (⟨3, 6⟩, ⟨7, 6⟩), (⟨7, 6⟩, ⟨4, 4⟩), (⟨4, 4⟩, ⟨3, 6⟩),
      (⟨3, 6⟩, ⟨7, 6⟩), (⟨7, 6⟩, ⟨10, 0⟩), (⟨10, 0⟩, ⟨0, 0⟩)] := rfl

/-- The four winding hits of the double counter-clockwise loop. -/
theorem hits_test1 :
    hitsLoop [puncA]
      ((nodesTest1 ++ [nodesTest1.headD ⟨0, 0⟩]).zip
        (nodesTest1 ++ [nodesTest1.headD ⟨0, 0⟩]).tail) =
    [('A', 1), ('A', 1), ('A', 1), ('A', 1)] := by
  rw [segs_test1]
  simp only [hitsLoop, hitsEdge, List.filterMap_cons, List.filterMap_nil, windA1, windA2,
    windA3, windA4, windA6, windA7, Option.map_some', Option.map_none']
  decide

/-- The source's `word()` on the repository's first `test_word` path
yields the bytes of `"aa"` (two letters for four hits, by the parity
accumulator). -/
theorem word_test1 : tTest1.word = [97, 97] := by
  rw [word_as_hits]
  have hpts : tTest1.puncture_points = [puncA] := rfl
  have hnodes : tTest1.current_path.nodes = nodesTest1 := rfl
  rw [hpts, hnodes, hits_test1]
  have hfold : ([('A', (1 : ℤ)), ('A', 1), ('A', 1), ('A', 1)].foldl hitStep
      ⟨[puncA].map fun pp => (pp.name, (0 : ℤ)), [], []⟩) =
      ⟨[('A', 4), ('A', 3), ('A', 2), ('A', 1), ('A', 0)], ['A'], ['a', 'a']⟩ := by
    decide
  rw [hfold]
  have hord : orderedFromState ⟨[('A', 4), ('A', 3), ('A', 2), ('A', 1), ('A', 0)],
      ['A'], ['a', 'a']⟩ = ['a', 'a'] := by decide
  rw [hord]
  have henc : encodeStr ['a', 'a'] = [97, 97] := rfl
  rw [henc]
  simp [simplify_word, simplifyAux, cancelable, toUpperByte]

/-- The claim's per-contribution edge-order construction on the same
path yields four letters (`"aaaa"`). -/
theorem specunred_test1 :
    specUnreducedC1 [puncA] nodesTest1 = ['a', 'a', 'a', 'a'] := by
  simp only [specUnreducedC1, segs_test1, List.foldl_cons, List.foldl_nil, windA1, windA2,
    windA3, windA4, windA6, windA7]
  decide

/-- Claim C1, counterexample: on the repository's own first `test_word`
path, `word()` returns the bytes of `"aa"` while the claimed
construction (one letter per `(edge, puncture)` winding contribution,
lowercase for `+1`, uppercase for `-1`, no reordering, then the
reduction) yields `"aaaa"` — the source instead uses a parity
accumulator and first-encounter reordering. -/
theorem c1_counterexample :
    tTest1.word ≠ simplify_word (encodeStr (specUnreducedC1 [puncA] nodesTest1)) := by
  rw [word_test1, specunred_test1]
  have henc : encodeStr ['a', 'a', 'a', 'a'] = [97, 97, 97, 97] := rfl
  rw [henc]
  have hsimp : simplify_word [97, 97, 97, 97] = [97, 97, 97, 97] := by
    simp [simplify_word, simplifyAux, cancelable, toUpperByte]
  rw [hsimp]
  decide

/-- Claim C10, counterexample: `PuncturePoint::new` performs no case
folding — constructing with label `'a'` stores `'a'`, not `'A'`. -/
theorem c10_counterexample :
    (PuncturePoint.new ⟨0, 0⟩ 'a').name = 'a' ∧ (PuncturePoint.new ⟨0, 0⟩ 'a').name ≠ 'A' := by
  constructor
  · rfl
  · decide

/-- Claim C10 (amended): puncture-point construction stores the label
unchanged — no case normalization happens, so constructing with `'a'`
and querying the stored label returns `'a'`. -/
theorem c10_new_stores_label_unchanged (position : Vec2) (name : Char) :
    (PuncturePoint.new position name).name = name := rfl

/-- Claim C10, witness for the amended theorem at a concrete input. -/
theorem c10_new_stores_label_unchanged_witness :
    (PuncturePoint.new ⟨0, 0⟩ 'a').name = 'a' :=
  c10_new_stores_label_unchanged ⟨0, 0⟩ 'a'

/-- Claim C7: `PathType::pop` is an unguarded `Vec::pop` — popping a
path that holds exactly one node leaves the node list empty (length 0),
violating the length ≥ 1 invariant the claim states; the source has no
guard and its own `start()`/`end()` expect a non-empty list. -/
theorem c7_pop_leaves_single_node_path_empty :
    (PathType.pop ⟨⟨[⟨0, 0⟩]⟩, []⟩).current_path.nodes = [] ∧
      (PathType.pop ⟨⟨[⟨0, 0⟩]⟩, []⟩).current_path.nodes.length = 0 ∧
      ([(⟨0, 0⟩ : Vec2)] : List Vec2).length = 1 :=
  ⟨rfl, rfl, rfl⟩

/-- Claim C4: free-group cancellation on the two required examples —
the byte strings of `"Aa"` (`[65, 97]`) and `"aBbA"`
(`[97, 66, 98, 65]`) both simplify to the empty string. -/
theorem c4_cancellation_examples :
    simplify_word [65, 97] = [] ∧ simplify_word [97, 66, 98, 65] = [] := by
  constructor <;> simp [simplify_word, simplifyAux, cancelable, toUpperByte]

/-- Claim C3, counterexample: for the puncture at `(0, 1)` and the
segment from `(0, 0)` to `(1, 0)`, the puncture's x equals `start.x`,
so the claimed exclusive direction-aware straddle test says `none`,
but the source's inclusive `min..=max` range check accepts it and
returns `some (-1)`. -/
theorem c3_counterexample :
    (PuncturePoint.new ⟨0, 1⟩ 'A').winding_update ⟨0, 0⟩ ⟨1, 0⟩ = some (-1) ∧
      windingSpecC3 (PuncturePoint.new ⟨0, 1⟩ 'A') ⟨0, 0⟩ ⟨1, 0⟩ = none := by
  constructor
  · norm_num [PuncturePoint.winding_update, PuncturePoint.new, min_def, max_def]
  · norm_num [windingSpecC3, PuncturePoint.new]

/-- Dropping the last element of a list with at least two elements
keeps the head. -/
theorem head?_dropLast_of_lt {α : Type} (l : List α) (h : 1 < l.length) :
    l.dropLast.head? = l.head? := by
  cases l with
  | nil => simp at h
  | cons a t =>
    cases t with
    | nil => simp at h
    | cons b t2 => simp [List.dropLast_cons₂]

/-- `PathType::push` always ends by appending the pushed point: the
resulting node list ends with that point. -/
theorem pushNodes_getLast (pts : List PuncturePoint) (nodes : List Vec2) (point : Vec2) :
    (pushNodes pts nodes point).getLast? = some point := by
  induction nodes, point using pushNodes.induct pts with
  | case1 nodes point h hcond ih =>
    rw [pushNodes.eq_def]
    simp only [dif_pos h]
    rw [if_pos hcond]
    exact ih
  | case2 nodes point h hcond =>
    rw [pushNodes.eq_def]
    simp only [dif_pos h]
    rw [if_neg hcond]
    exact List.getLast?_concat nodes
  | case3 nodes point h =>
    rw [pushNodes.eq_def]
    simp only [dif_neg h]
    exact List.getLast?_concat nodes

/-- `PathType::push` never removes the first node: the head of the node
list is preserved (the pruning recursion only drops trailing nodes of a
list longer than two). -/
theorem pushNodes_head (pts : List PuncturePoint) (nodes : List Vec2) (point : Vec2)
    (hne : nodes ≠ []) : (pushNodes pts nodes point).head? = nodes.head? := by
  induction nodes, point using pushNodes.induct pts with
  | case1 nodes point h hcond ih =>
    rw [pushNodes.eq_def]
    simp only [dif_pos h]
    rw [if_pos hcond]
    have hlen : 1 < nodes.length := by omega
    have hdne : nodes.dropLast ≠ [] := by
      have : 0 < nodes.dropLast.length := by
        simp only [List.length_dropLast]
        omega
      exact List.ne_nil_of_length_pos this
    exact (ih hdne).trans (head?_dropLast_of_lt nodes hlen)
  | case2 nodes point h hcond =>
    rw [pushNodes.eq_def]
    simp only [dif_pos h]
    rw [if_neg hcond]
    exact List.head?_append_of_ne_nil _ hne
  | case3 nodes point h =>
    rw [pushNodes.eq_def]
    simp only [dif_neg h]
    exact List.head?_append_of_ne_nil _ hne

/-- The result of `PathType::push` is never the empty node list. -/
theorem pushNodes_ne_nil (pts : List PuncturePoint) (nodes : List Vec2) (point : Vec2) :
    pushNodes pts nodes point ≠ [] := by
  intro hnil
  have := pushNodes_getLast pts nodes point
  rw [hnil] at this
  simp at this

/-- Over any sequence of pushes the head of the node list is preserved
and the list stays non-empty. -/
theorem foldl_push_start (t : PathType) (qs : List Vec2)
    (h : t.current_path.nodes ≠ []) :
    (List.foldl PathType.push t qs).current_path.nodes.head? = t.current_path.nodes.head? ∧
      (List.foldl PathType.push t qs).current_path.nodes ≠ [] := by
  induction qs generalizing t with
  | nil => exact ⟨rfl, h⟩
  | cons q qs ih =>
    simp only [List.foldl_cons]
    have h1 : (t.push q).current_path.nodes ≠ [] := pushNodes_ne_nil _ _ _
    obtain ⟨ha, hb⟩ := ih (t.push q) h1
    refine ⟨ha.trans ?_, hb⟩
    exact pushNodes_head _ _ _ h

/-- Claim C6: for a `PathType` with a non-empty current path, a push
never changes `start()`, and after `push(p)` the path's `end()` is `p`
(the pushed point is always appended, never pruned); consequently over
any sequence of pushes the start is preserved and the end equals the
most recently pushed point. -/
theorem c6_push_preserves_start_and_end (t : PathType) (p : Vec2) (ps : List Vec2)
    (h : t.current_path.nodes ≠ []) :
    ((t.push p).current_path.start = t.current_path.start ∧
      (t.push p).current_path.endpoint = some p) ∧
    ((List.foldl PathType.push t (ps ++ [p])).current_path.start = t.current_path.start ∧
      (List.foldl PathType.push t (ps ++ [p])).current_path.endpoint = some p) := by
  refine ⟨⟨pushNodes_head _ _ _ h, pushNodes_getLast _ _ _⟩, ?_, ?_⟩
  · exact (foldl_push_start t (ps ++ [p]) h).1
  · rw [List.foldl_append]
    simp only [List.foldl_cons, List.foldl_nil]
    exact pushNodes_getLast _ _ _

/-- Claim C6, witness: the theorem applied to the one-node path at the
origin, pushing `(1, 1)`. -/
theorem c6_push_preserves_start_and_end_witness :
    ((⟨⟨[⟨0, 0⟩]⟩, []⟩ : PathType).current_path.nodes ≠ []) ∧
    ((((⟨⟨[⟨0, 0⟩]⟩, []⟩ : PathType).push ⟨1, 1⟩).current_path.start =
        (⟨⟨[⟨0, 0⟩]⟩, []⟩ : PathType).current_path.start ∧
      (((⟨⟨[⟨0, 0⟩]⟩, []⟩ : PathType)).push ⟨1, 1⟩).current_path.endpoint = some ⟨1, 1⟩) ∧
    ((List.foldl PathType.push (⟨⟨[⟨0, 0⟩]⟩, []⟩ : PathType) ([] ++ [⟨1, 1⟩])).current_path.start =
        (⟨⟨[⟨0, 0⟩]⟩, []⟩ : PathType).current_path.start ∧
      (List.foldl PathType.push (⟨⟨[⟨0, 0⟩]⟩, []⟩ : PathType)
          ([] ++ [⟨1, 1⟩])).current_path.endpoint = some ⟨1, 1⟩)) :=
  ⟨List.cons_ne_nil _ _,
    c6_push_preserves_start_and_end ⟨⟨[⟨0, 0⟩]⟩, []⟩ ⟨1, 1⟩ [] (List.cons_ne_nil _ _)⟩

/-- Claim C2, counterexample: the pruning threshold and predicate of the
claim disagree with the source.  (a) With exactly 2 nodes the source
appends unconditionally (`len() > 2` guard) while the claim prunes:
pushing `(2,0)` onto `[(0,0), (1,0)]` with a far-away puncture.
(b) With 3 collinear nodes and a puncture inside the epsilon x-band of
the middle node (but in no triangle), the claim's `should_not_remove`
protects the node while the source prunes it. -/
theorem c2_counterexample :
    pushNodes [puncFar] [⟨0, 0⟩, ⟨1, 0⟩] ⟨2, 0⟩ ≠
        pushSpecC2 [puncFar] [⟨0, 0⟩, ⟨1, 0⟩] ⟨2, 0⟩ ∧
      pushNodes [puncBand] [⟨-1, 0⟩, ⟨0, 0⟩, ⟨1, 0⟩] ⟨2, 0⟩ ≠
        pushSpecC2 [puncBand] [⟨-1, 0⟩, ⟨0, 0⟩, ⟨1, 0⟩] ⟨2, 0⟩ := by
  have hA1 : pushNodes [puncFar] [⟨0, 0⟩, ⟨1, 0⟩] ⟨2, 0⟩ =
      [⟨0, 0⟩, ⟨1, 0⟩, ⟨2, 0⟩] := by
    rw [pushNodes.eq_def]
    norm_num
  have hA2 : pushSpecC2 [puncFar] [⟨0, 0⟩, ⟨1, 0⟩] ⟨2, 0⟩ = [⟨0, 0⟩, ⟨2, 0⟩] := by
    rw [pushSpecC2.eq_def]
    norm_num [should_not_remove_spec, PuncturePoint.is_in_triangle, puncFar,
      PuncturePoint.new, f32_EPSILON, List.getD]
    rw [pushSpecC2.eq_def]
    norm_num
  have hB1 : pushNodes [puncBand] [⟨-1, 0⟩, ⟨0, 0⟩, ⟨1, 0⟩] ⟨2, 0⟩ =
      [⟨-1, 0⟩, ⟨0, 0⟩, ⟨2, 0⟩] := by
    rw [pushNodes.eq_def]
    norm_num [is_any_point_in_triangle, PuncturePoint.is_in_triangle, puncBand,
      PuncturePoint.new, f32_EPSILON, List.getD]
    rw [pushNodes.eq_def]
    norm_num
  have hB2 : pushSpecC2 [puncBand] [⟨-1, 0⟩, ⟨0, 0⟩, ⟨1, 0⟩] ⟨2, 0⟩ =
      [⟨-1, 0⟩, ⟨0, 0⟩, ⟨1, 0⟩, ⟨2, 0⟩] := by
    rw [pushSpecC2.eq_def]
    norm_num [should_not_remove_spec, PuncturePoint.is_in_triangle, puncBand,
      PuncturePoint.new, f32_EPSILON, List.getD, abs]
  rw [hA1, hA2, hB1, hB2]
  constructor
  · intro hcontra
    have := congrArg List.length hcontra
    simp at this
  · intro hcontra
    have := congrArg List.length hcontra
    simp at this

/-- Claim C2 (amended): `PathType::push(new_point)` appends
unconditionally when the path has **2 or fewer** nodes; otherwise, with
`p1`, `p2` the last two nodes, it pops `p2` and retries exactly when no
puncture point is **inside the triangle** `p1 p2 new_point` (there is
no epsilon x-band condition in the source); otherwise it appends. -/
theorem c2_push_equals_amended (pts : List PuncturePoint) (nodes : List Vec2)
    (point : Vec2) : pushNodes pts nodes point = pushAmendedC2 pts nodes point := by
  induction nodes, point using pushNodes.induct pts with
  | case1 nodes point h hcond ih =>
    rw [pushNodes.eq_def, pushAmendedC2.eq_def]
    rw [dif_pos h, dif_neg (by omega : ¬nodes.length ≤ 2)]
    rw [if_pos hcond]
    have hidx : nodes.length - 2 + 1 = nodes.length - 1 := by omega
    rw [hidx] at hcond
    have hall : (pts.all fun pp =>
        !(pp.is_in_triangle (nodes.getD (nodes.length - 2) ⟨0, 0⟩)
          (nodes.getD (nodes.length - 1) ⟨0, 0⟩) point)) = true := by
      rw [List.all_eq_true]
      intro pp hpp
      simp only [Bool.not_eq_true']
      by_contra hin
      rw [Bool.not_eq_false] at hin
      have : is_any_point_in_triangle (nodes.getD (nodes.length - 2) ⟨0, 0⟩)
          (nodes.getD (nodes.length - 1) ⟨0, 0⟩) point pts = true := by
        rw [is_any_point_in_triangle, List.any_eq_true]
        exact ⟨pp, hpp, hin⟩
      rw [this] at hcond
      simp at hcond
    rw [if_pos hall]
    exact ih
  | case2 nodes point h hcond =>
    rw [pushNodes.eq_def, pushAmendedC2.eq_def]
    rw [dif_pos h, dif_neg (by omega : ¬nodes.length ≤ 2)]
    rw [if_neg hcond]
    have hidx : nodes.length - 2 + 1 = nodes.length - 1 := by omega
    rw [hidx] at hcond
    have hany : is_any_point_in_triangle (nodes.getD (nodes.length - 2) ⟨0, 0⟩)
        (nodes.getD (nodes.length - 1) ⟨0, 0⟩) point pts = true := by
      rcases Bool.eq_false_or_eq_true (is_any_point_in_triangle
        (nodes.getD (nodes.length - 2) ⟨0, 0⟩)
        (nodes.getD (nodes.length - 1) ⟨0, 0⟩) point pts) with ht | hf
    -- the guard in the source tested `= false`; its negation gives `= true`
      · exact ht
      · exact absurd hf hcond
    have hnall : ¬(pts.all fun pp =>
        !(pp.is_in_triangle (nodes.getD (nodes.length - 2) ⟨0, 0⟩)
          (nodes.getD (nodes.length - 1) ⟨0, 0⟩) point)) = true := by
      rw [is_any_point_in_triangle, List.any_eq_true] at hany
      obtain ⟨pp, hpp, hin⟩ := hany
      intro hallTrue
      have h2 := (List.all_eq_true.mp hallTrue) pp hpp
      rw [hin] at h2
      simp at h2
    rw [if_neg hnall]
  | case3 nodes point h =>
    rw [pushNodes.eq_def, pushAmendedC2.eq_def]
    rw [dif_neg h, dif_pos (by omega : nodes.length ≤ 2)]

/-- Draining two bytes at position `i` leaves positions below `i`
unchanged. -/
theorem drain_getD_lt (w : List Nat) (i j : Nat) (hj : j < i) (hi : i ≤ w.length) :
    (w.take i ++ w.drop (i + 2)).getD j 0 = w.getD j 0 := by
  rw [List.getD_append _ _ _ _ (by simp only [List.length_take]; omega)]
  simp [List.getD, List.getElem?_take, hj]

/-- The scan loop of `simplify_word` establishes full reduction: if no
pair below the current index cancels, the final word is reduced. -/
theorem simplifyAux_reduced (w : List Nat) (i : Nat) :
    (∀ j, j + 1 < w.length → j < i →
      cancelable (w.getD j 0) (w.getD (j + 1) 0) = false) →
    Reduced (simplifyAux w i) := by
  induction w, i using simplifyAux.induct with
  | case1 w i hlen hcan ih =>
    intro h
    rw [simplifyAux.eq_def]
    rw [dif_pos hlen, if_pos hcan]
    apply ih
    intro j hj1 hj2
    have hlt : i ≤ w.length := by omega
    have hjlt : j < i := by omega
    have hj1lt : j + 1 < i := by omega
    rw [drain_getD_lt w i j hjlt hlt, drain_getD_lt w i (j + 1) hj1lt hlt]
    exact h j (by omega) (by omega)
  | case2 w i hlen hcan ih =>
    intro h
    rw [simplifyAux.eq_def]
    rw [dif_pos hlen, if_neg hcan]
    apply ih
    intro j hj1 hj2
    by_cases hji : j < i
    · exact h j hj1 hji
    · have hji2 : j = i := by omega
      subst hji2
      simp only [Bool.not_eq_true] at hcan
      exact hcan
  | case3 w i hlen =>
    intro h
    rw [simplifyAux.eq_def, dif_neg hlen]
    intro j hj1
    exact h j hj1 (by omega)

/-- On a reduced word the scan loop of `simplify_word` is the
identity, from any index. -/
theorem simplifyAux_of_reduced (w : List Nat) (i : Nat) :
    Reduced w → simplifyAux w i = w := by
  induction w, i using simplifyAux.induct with
  | case1 w i hlen hcan ih =>
    intro h
    have hred := h i hlen
    rw [hred] at hcan
    exact absurd hcan (by simp)
  | case2 w i hlen hcan ih =>
    intro h
    rw [simplifyAux.eq_def, dif_pos hlen, if_neg hcan]
    exact ih h
  | case3 w i hlen =>
    intro h
    rw [simplifyAux.eq_def, dif_neg hlen]

/-- The cancellation condition only ever fires on a pair of ASCII
bytes (a lowercase letter next to its uppercase form). -/
theorem cancelable_ascii (a b : Nat) (h : cancelable a b = true) : a < 128 ∧ b < 128 := by
  simp only [cancelable, Bool.and_eq_true, decide_eq_true_eq] at h
  obtain ⟨heq, hne⟩ := h
  unfold toUpperByte at heq
  split_ifs at heq <;> omega

/-- UTF-8 encodings are never empty. -/
theorem encodeChar_ne_nil (c : Char) : encodeChar c ≠ [] := by
  unfold encodeChar
  split_ifs <;> simp

/-- A UTF-8 encoding whose first byte is below `0x80` is a single ASCII
byte. -/
theorem encodeChar_head_lt (c : Char)
    (h : (encodeChar c).getD 0 0 < 128) : encodeChar c = [c.toNat] := by
  unfold encodeChar at *
  split_ifs at * with h1 h2 h3
  · rfl
  · simp only [List.getD_cons_zero] at h
    omega
  · simp only [List.getD_cons_zero] at h
    omega
  · simp only [List.getD_cons_zero] at h
    omega

/-- Every byte of a UTF-8 encoding other than the first is a
continuation byte (at least `0x80`). -/
theorem encodeChar_getD_ge (c : Char) (j : Nat) (h1 : 1 ≤ j)
    (h2 : j < (encodeChar c).length) : 128 ≤ (encodeChar c).getD j 0 := by
  unfold encodeChar at *
  split_ifs at * with ha hb hc
  · simp at h2
    omega
  · simp only [List.length_cons, List.length_nil] at h2
    have : j = 1 := by omega
    subst this
    simp only [List.getD_cons_succ, List.getD_cons_zero]
    omega
  · simp only [List.length_cons, List.length_nil] at h2
    interval_cases j <;> simp only [List.getD_cons_succ, List.getD_cons_zero] <;> omega
  · simp only [List.length_cons, List.length_nil] at h2
    interval_cases j <;> simp only [List.getD_cons_succ, List.getD_cons_zero] <;> omega

/-- `encodeStr` unfolds on cons. -/
theorem encodeStr_cons (c : Char) (cs : List Char) :
    encodeStr (c :: cs) = encodeChar c ++ encodeStr cs := rfl

/-- Splitting a UTF-8 byte string around two adjacent ASCII bytes: the
two bytes are whole single-byte characters, and removing them (as
`drain(i..i+2)` does) yields the encoding of the character sequence
with those two characters removed. -/
theorem encodeStr_split (cs : List Char) (i : Nat) :
    ∀ (hi : i + 1 < (encodeStr cs).length)
      (ha : (encodeStr cs).getD i 0 < 128)
      (hb : (encodeStr cs).getD (i + 1) 0 < 128),
    ∃ cs1 c1 c2 cs2, cs = cs1 ++ c1 :: c2 :: cs2 ∧
      (encodeStr cs).take i ++ (encodeStr cs).drop (i + 2) = encodeStr (cs1 ++ cs2) := by
  induction cs generalizing i with
  | nil =>
    intro hi _ _
    simp [encodeStr] at hi
  | cons c cs ih =>
    intro hi ha hb
    by_cases hi0 : i = 0
    · subst hi0
      have hgd0 : (encodeStr (c :: cs)).getD 0 0 = (encodeChar c).getD 0 0 := by
        rw [encodeStr_cons]
        exact List.getD_append _ _ _ _ (List.length_pos.mpr (encodeChar_ne_nil c))
      have hc : encodeChar c = [c.toNat] := encodeChar_head_lt c (by rw [← hgd0]; exact ha)
      rw [encodeStr_cons, hc] at hi ha hb ⊢
      simp only [List.singleton_append] at hi ha hb ⊢
      cases cs with
      | nil => simp [encodeStr] at hi
      | cons c2 cs2 =>
        have hgd1 : (encodeStr (c2 :: cs2)).getD 0 0 = (encodeChar c2).getD 0 0 := by
          rw [encodeStr_cons]
          exact List.getD_append _ _ _ _ (List.length_pos.mpr (encodeChar_ne_nil c2))
        have hb0 : (encodeStr (c2 :: cs2)).getD 0 0 < 128 := by
          simpa using hb
        have hc2 : encodeChar c2 = [c2.toNat] :=
          encodeChar_head_lt c2 (by rw [← hgd1]; exact hb0)
        refine ⟨[], c, c2, cs2, by simp, ?_⟩
        rw [encodeStr_cons, hc2]
        simp [encodeStr]
    · have hk1 : 0 < (encodeChar c).length := List.length_pos.mpr (encodeChar_ne_nil c)
      by_cases hik : i < (encodeChar c).length
      · exfalso
        have hgd : (encodeStr (c :: cs)).getD i 0 = (encodeChar c).getD i 0 := by
          rw [encodeStr_cons]
          exact List.getD_append _ _ _ _ hik
        rw [hgd] at ha
        have := encodeChar_getD_ge c i (by omega) hik
        omega
      · push_neg at hik
        have hi' : i - (encodeChar c).length + 1 < (encodeStr cs).length := by
          rw [encodeStr_cons, List.length_append] at hi
          omega
        have ha' : (encodeStr cs).getD (i - (encodeChar c).length) 0 < 128 := by
          have hgd : (encodeStr (c :: cs)).getD i 0 =
              (encodeStr cs).getD (i - (encodeChar c).length) 0 := by
            rw [encodeStr_cons]
            exact List.getD_append_right _ _ _ _ hik
          rw [← hgd]
          exact ha
        have hb' : (encodeStr cs).getD (i - (encodeChar c).length + 1) 0 < 128 := by
          have hik1 : (encodeChar c).length ≤ i + 1 := by omega
          have hgd : (encodeStr (c :: cs)).getD (i + 1) 0 =
              (encodeStr cs).getD (i + 1 - (encodeChar c).length) 0 := by
            rw [encodeStr_cons]
            exact List.getD_append_right _ _ _ _ hik1
          rw [show i - (encodeChar c).length + 1 = i + 1 - (encodeChar c).length by omega,
            ← hgd]
          exact hb
        obtain ⟨cs1, c1, c2, cs2, hcs, hdrop⟩ := ih (i - (encodeChar c).length) hi' ha' hb'
        refine ⟨c :: cs1, c1, c2, cs2, by rw [hcs]; simp, ?_⟩
        rw [encodeStr_cons, List.take_append_eq_append_take, List.drop_append_eq_append_drop]
        rw [List.take_of_length_le (by omega : (encodeChar c).length ≤ i)]
        rw [List.drop_eq_nil_of_le (by omega : (encodeChar c).length ≤ i + 2)]
        simp only [List.nil_append]
        rw [show i + 2 - (encodeChar c).length = i - (encodeChar c).length + 2 by omega]
        rw [List.append_assoc, hdrop]
        rw [List.cons_append, encodeStr_cons]

/-- The scan loop of `simplify_word` only deletes elements: its result
is a sublist of its input. -/
theorem simplifyAux_sublist (w : List Nat) (i : Nat) : (simplifyAux w i).Sublist w := by
  induction w, i using simplifyAux.induct with
  | case1 w i hlen hcan ih =>
    rw [simplifyAux.eq_def, dif_pos hlen, if_pos hcan]
    refine ih.trans ?_
    have h1 : (w.drop (i + 2)).Sublist (w.drop i) := by
      have := List.drop_sublist 2 (w.drop i)
      simpa [List.drop_drop] using this
    have h2 := List.Sublist.append_left h1 (w.take i)
    rw [List.take_append_drop] at h2
    exact h2
  | case2 w i hlen hcan ih =>
    rw [simplifyAux.eq_def, dif_pos hlen, if_neg hcan]
    exact ih
  | case3 w i hlen =>
    rw [simplifyAux.eq_def, dif_neg hlen]

/-- The scan loop of `simplify_word` maps valid UTF-8 to valid UTF-8:
if the input is the encoding of some character sequence, the output is
the encoding of a subsequence of it (whole characters are deleted, at
character boundaries). -/
theorem simplifyAux_encodes (w : List Nat) (i : Nat) :
    ∀ cs : List Char, encodeStr cs = w →
      ∃ ds, ds.Sublist cs ∧ encodeStr ds = simplifyAux w i := by
  induction w, i using simplifyAux.induct with
  | case1 w i hlen hcan ih =>
    intro cs hw
    rw [simplifyAux.eq_def, dif_pos hlen, if_pos hcan]
    have hab := cancelable_ascii _ _ hcan
    obtain ⟨cs1, c1, c2, cs2, hcs, hdrop⟩ := encodeStr_split cs i
      (by rw [hw]; exact hlen) (by rw [hw]; exact hab.1) (by rw [hw]; exact hab.2)
    obtain ⟨ds, hds, hde⟩ := ih (cs1 ++ cs2) (by rw [← hdrop, hw])
    refine ⟨ds, hds.trans ?_, hde⟩
    rw [hcs]
    exact List.Sublist.append_left
      ((List.sublist_cons_self c2 cs2).trans (List.sublist_cons_self c1 (c2 :: cs2))) cs1
  | case2 w i hlen hcan ih =>
    intro cs hw
    rw [simplifyAux.eq_def, dif_pos hlen, if_neg hcan]
    exact ih cs hw
  | case3 w i hlen =>
    intro cs hw
    rw [simplifyAux.eq_def, dif_neg hlen]
    exact ⟨cs, List.Sublist.refl cs, hw⟩

/-- Claim C9: `simplify_word` is UTF-8 safe — on the byte string of any
character sequence it only deletes whole characters at character
boundaries (the result is the encoding of a subsequence of the
characters, so no multi-byte character is corrupted and no deletion
splits an encoding; in particular every `drain` stays in bounds and on
boundaries, so the routine cannot fail). -/
theorem c9_simplify_word_utf8_safe (bs : List Nat) (cs : List Char)
    (h : encodeStr cs = bs) :
    (simplify_word bs).Sublist bs ∧
      ∃ ds, ds.Sublist cs ∧ encodeStr ds = simplify_word bs :=
  ⟨simplifyAux_sublist bs 0, simplifyAux_encodes bs 0 cs h⟩

/-- Claim C9, witness: the theorem applied to the byte string of
`"éAa"` (a two-byte character followed by a cancelling ASCII pair). -/
theorem c9_simplify_word_utf8_safe_witness :
    encodeStr ['é', 'A', 'a'] = [195, 169, 65, 97] ∧
      ((simplify_word [195, 169, 65, 97]).Sublist [195, 169, 65, 97] ∧
        ∃ ds, ds.Sublist ['é', 'A', 'a'] ∧
          encodeStr ds = simplify_word [195, 169, 65, 97]) :=
  ⟨rfl, c9_simplify_word_utf8_safe [195, 169, 65, 97] ['é', 'A', 'a'] rfl⟩

/-- `to_ascii_lowercase` never returns an uppercase ASCII letter. -/
theorem asciiLower_not_upper (c : Char) :
    ¬(65 ≤ (asciiLower c).toNat ∧ (asciiLower c).toNat ≤ 90) := by
  unfold asciiLower
  split_ifs with h
  · have hv : (c.toNat + 32).isValidChar := by
      left
      omega
    have htn : (Char.ofNat (c.toNat + 32)).toNat = c.toNat + 32 := by
      simp only [Char.ofNat, Char.ofNatAux, Char.toNat, UInt32.toNat]
      split
      · rfl
      · rename_i hbad
        exact absurd hv hbad
    rw [htn]
    omega
  · push_neg at h
    omega

/-- Every byte of a UTF-8 encoding is the character itself (single-byte
case) or at least `0x80`. -/
theorem encodeChar_byte_cases (c : Char) : ∀ b ∈ encodeChar c, b = c.toNat ∨ 128 ≤ b := by
  intro b hb
  unfold encodeChar at hb
  split_ifs at hb with h1 h2 h3
  · simp only [List.mem_singleton] at hb
    exact Or.inl hb
  · simp only [List.mem_cons, List.not_mem_nil, or_false] at hb
    rcases hb with hb | hb <;> omega
  · simp only [List.mem_cons, List.not_mem_nil, or_false] at hb
    rcases hb with hb | hb | hb <;> omega
  · simp only [List.mem_cons, List.not_mem_nil, or_false] at hb
    rcases hb with hb | hb | hb | hb <;> omega

/-- Encoding a sequence without uppercase ASCII letters yields no byte
in the uppercase ASCII range. -/
theorem encodeStr_no_upper (cs : List Char) (h : noUpperAscii cs) :
    ∀ b ∈ encodeStr cs, ¬(65 ≤ b ∧ b ≤ 90) := by
  induction cs with
  | nil => simp [encodeStr]
  | cons c cs ih =>
    intro b hb
    rw [encodeStr_cons, List.mem_append] at hb
    rcases hb with hb | hb
    · rcases encodeChar_byte_cases c b hb with hbc | hbc
      · subst hbc
        exact h c (List.mem_cons_self c cs)
      · omega
    · exact ih (fun d hd => h d (List.mem_cons_of_mem c hd)) b hb

/-- A `word()` loop iteration appends only lowercased characters to the
raw word. -/
theorem wordStep_w_no_upper (s e : Vec2) (st : WState) (pp : PuncturePoint)
    (h : noUpperAscii st.w) : noUpperAscii (wordStep s e st pp).w := by
  unfold wordStep
  rcases hwu : pp.winding_update s e with _ | n
  · exact h
  · simp only []
    split
    · intro c hc
      rcases List.mem_append.mp hc with hc | hc
      · exact h c hc
      · rw [List.mem_singleton] at hc
        subst hc
        exact asciiLower_not_upper _
    · exact h

/-- The per-edge puncture fold preserves the lowercase invariant of the
raw word. -/
theorem foldl_wordStep_w_no_upper (s e : Vec2) (pps : List PuncturePoint) (st : WState)
    (h : noUpperAscii st.w) : noUpperAscii ((pps.foldl (wordStep s e) st).w) := by
  induction pps generalizing st with
  | nil => exact h
  | cons pp pps ih =>
    simp only [List.foldl_cons]
    exact ih _ (wordStep_w_no_upper s e st pp h)

/-- The edge fold preserves the lowercase invariant of the raw word. -/
theorem foldl_edges_w_no_upper (segs : List (Vec2 × Vec2)) (pts : List PuncturePoint)
    (st : WState) (h : noUpperAscii st.w) :
    noUpperAscii ((segs.foldl (fun acc se => pts.foldl (wordStep se.1 se.2) acc) st).w) := by
  induction segs generalizing st with
  | nil => exact h
  | cons se segs ih =>
    simp only [List.foldl_cons]
    exact ih _ (foldl_wordStep_w_no_upper se.1 se.2 pts st h)

/-- The first-encounter reordering only selects characters of the raw
word, so it preserves the lowercase invariant. -/
theorem foldl_filter_no_upper (names : List Char) (w : List Char) (acc : List Char)
    (hw : noUpperAscii w) (hacc : noUpperAscii acc) :
    noUpperAscii (names.foldl
      (fun acc name => acc ++ w.filter fun c => asciiUpper c == name || asciiLower c == name)
      acc) := by
  induction names generalizing acc with
  | nil => exact hacc
  | cons name names ih =>
    simp only [List.foldl_cons]
    apply ih
    intro c hc
    rcases List.mem_append.mp hc with hc | hc
    · exact hacc c hc
    · exact hw c (List.mem_filter.mp hc).1

/-- Claim C5: for every `PathType`, the byte string returned by
`word()` contains no uppercase ASCII letter — every character appended
during word construction is lowercased before being pushed, the
first-encounter reordering only selects existing characters, and the
reduction only deletes bytes. -/
theorem c5_word_has_no_uppercase (t : PathType) :
    (t.word).all (fun b => !decide (65 ≤ b ∧ b ≤ 90)) = true := by
  rw [List.all_eq_true]
  intro b hb
  simp only [Bool.not_eq_true', decide_eq_false_iff_not]
  unfold PathType.word at hb
  simp only [] at hb
  have hsub := (simplifyAux_sublist _ 0).subset hb
  apply encodeStr_no_upper _ ?_ b hsub
  apply foldl_filter_no_upper
  · apply foldl_edges_w_no_upper
    intro c hc
    simp at hc
  · intro c hc
    simp at hc

/-- Claim C8: `simplify_word` is idempotent — one pass leaves a fully
reduced word (no adjacent same-label opposite-case pair remains), which
is a fixed point of a second pass. -/
theorem c8_simplify_word_idempotent (w : List Nat) :
    simplify_word (simplify_word w) = simplify_word w :=
  simplifyAux_of_reduced _ 0
    (simplifyAux_reduced w 0 fun j _ hj => absurd hj (Nat.not_lt_zero j))

/-- Claim C3 (amended): `winding_update` returns `none` when the
puncture's x lies outside the inclusive interval between `start.x` and
`end.x` or when the cross product of `(puncture - start)` with
`(end - start)` is zero; otherwise it returns the sign of that cross
product. -/
theorem c3_winding_update_characterization (pp : PuncturePoint) (s e : Vec2) :
    pp.winding_update s e = windingSpecC3Amended pp s e := by
  unfold PuncturePoint.winding_update windingSpecC3Amended
  have hmin : min s.x e.x ≤ pp.position.x ↔ ¬ pp.position.x < min s.x e.x := not_lt.symm
  have hmax : pp.position.x ≤ max s.x e.x ↔ ¬ max s.x e.x < pp.position.x := not_lt.symm
  rcases lt_trichotomy
      ((pp.position.x - s.x) * (e.y - s.y) - (pp.position.y - s.y) * (e.x - s.x)) 0 with
    hc | hc | hc
  · by_cases hin : min s.x e.x ≤ pp.position.x ∧ pp.position.x ≤ max s.x e.x
    · simp [hc, ne_of_lt hc, hc.not_lt, hin.1, hin.2, hmin.mp hin.1, hmax.mp hin.2]
    · rw [Classical.not_and_iff_or_not_not, not_le, not_le] at hin
      rcases hin with hin | hin
      · simp [hc, ne_of_lt hc, hc.not_lt, hin, hin.not_le]
      · simp [hc, ne_of_lt hc, hc.not_lt, hin, hin.not_le]
  · simp [hc]
  · by_cases hin : min s.x e.x ≤ pp.position.x ∧ pp.position.x ≤ max s.x e.x
    · simp [hc, ne_of_gt hc, hc.not_lt, not_lt_of_gt hc, hin.1, hin.2,
        hmin.mp hin.1, hmax.mp hin.2]
    · rw [Classical.not_and_iff_or_not_not, not_le, not_le] at hin
      rcases hin with hin | hin
      · simp [hc, ne_of_gt hc, not_lt_of_gt hc, hin, hin.not_le]
      · simp [hc, ne_of_gt hc, not_lt_of_gt hc, hin, hin.not_le]
